import Mathlib

/-!
Shallow embedding of the deduplication and content-strategy selection
pipeline of `generate_digest.py` (with `yaml_utils.py` out of the core),
together with theorems settling the specification claims about it.

Conventions of the embedding:
* Python strings are Lean `String`s; text scanning works on `List Char`.
* Python's `str.lower` is modelled by `Char.toLower` character-wise
  (the keywords and fields of interest are ASCII).
* The MD5 digest is an external library call; the pipeline is
  parameterised by an arbitrary digest function `md5 : String → String`,
  so every theorem holds for the real digest in particular.
* `datetime.now()` is modelled by explicit `hour : Nat` / `now : String`
  parameters.
* The filesystem and the `json` library are modelled at the level of
  parse outcomes (`HistoryFile`, `Json`), and the byte content written
  by `json.dump(..., indent=2, ensure_ascii=False)` is reimplemented
  concretely (`save_processed_articles`) with a verified parser
  (`parseStore`) inverting it.
-/

/-- Case-insensitive text: map `Char.toLower` over the characters
(model of Python `str.lower()` on ASCII text). -/
def lowerChars (s : String) : List Char :=
  s.toList.map Char.toLower

/-- Test `listStartsWith needle hay`: true when `needle` is an initial
segment of `hay`. -/
def listStartsWith : List Char → List Char → Bool
  | [], _ => true
  | _ :: _, [] => false
  | a :: xs, b :: ys => a == b && listStartsWith xs ys

/-- Test `strContains needle hay`: `needle` occurs as a contiguous substring
of `hay` (model of Python's `needle in hay` on strings; the empty needle
is contained in everything). -/
def strContains (needle : List Char) : List Char → Bool
  | [] => needle.isEmpty
  | c :: t => listStartsWith needle (c :: t) || strContains needle t

/-- An article as assembled by `fetch_articles_from_feed`. -/
structure Article where
  title : String
  link : String
  published : String
  content : String
deriving DecidableEq

/-- A content strategy (value of the `strategies` dictionary in
`get_content_strategy`). -/
structure Strategy where
  time_range : String
  focus : List String
  style : String
  description : String
deriving DecidableEq

/-- The `"morning"` strategy value. -/
def morningStrategy : Strategy :=
  { time_range := "6-11"
    focus := ["javascript", "frontend", "react", "vue", "angular",
              "typescript", "node.js", "coding-tips"]
    style := "energetic and practical"
    description := "Technical tutorials and coding tips to start the day" }

/-- The `"afternoon"` strategy value. -/
def afternoonStrategy : Strategy :=
  { time_range := "12-17"
    focus := ["backend", "databases", "api", "devops", "cloud",
              "architecture", "performance", "security"]
    style := "detailed and informative"
    description := "Deep technical content for focused work hours" }

/-- The `"evening"` strategy value. -/
def eveningStrategy : Strategy :=
  { time_range := "18-23"
    focus := ["ux", "ui", "design", "productivity", "tools", "career",
              "soft-skills", "trends"]
    style := "thoughtful and reflective"
    description := "Design, career, and industry insights for evening reading" }

/-- The `"night"` strategy value. -/
def nightStrategy : Strategy :=
  { time_range := "0-5"
    focus := ["tutorials", "learning", "fundamentals", "concepts",
              "theory", "best-practices"]
    style := "educational and foundational"
    description := "Educational content for late-night learners" }

/-- Function `get_content_strategy`, with the wall-clock hour made an explicit
parameter (the source reads `datetime.now().hour`). -/
def get_content_strategy (current_hour : Nat) : Strategy :=
  if 6 ≤ current_hour ∧ current_hour ≤ 11 then morningStrategy
  else if 12 ≤ current_hour ∧ current_hour ≤ 17 then afternoonStrategy
  else if 18 ≤ current_hour ∧ current_hour ≤ 23 then eveningStrategy
  else nightStrategy

/-- The text a strategy is matched against:
`f"{article['title']} {article['content']}".lower()`. -/
def articleText (a : Article) : List Char :=
  lowerChars (a.title ++ " " ++ a.content)

/-- The strategy score of an article: the number of focus keywords
whose lowercase form occurs in the lowercased title-plus-content text
(the `score` accumulated in `filter_articles_by_strategy`). -/
def strategyScore (strategy : Strategy) (a : Article) : Nat :=
  strategy.focus.countP (fun keyword => strContains (lowerChars keyword) (articleText a))

/-- One step of a stable insertion sort by a numeric key, descending:
`a` is placed before the first element whose key is `≤ key a`, so an
element inserted later (which stood earlier in the input) precedes
equal-key elements. -/
def insertDesc {α : Type} (key : α → Nat) (a : α) : List α → List α
  | [] => [a]
  | b :: t => if key a < key b then b :: insertDesc key a t else a :: b :: t

/-- Stable sort by a numeric key, descending: the model of Python's
`list.sort(key=..., reverse=True)` (Timsort is stable, and a stable
descending sort by key is unique, so any stable implementation is a
faithful model). -/
def sortDesc {α : Type} (key : α → Nat) : List α → List α
  | [] => []
  | a :: t => insertDesc key a (sortDesc key t)

/-- Function `filter_articles_by_strategy`: keep the articles with at least one
keyword match, then sort by score, highest first (stable). -/
def filter_articles_by_strategy (articles : List Article) (strategy : Strategy) :
    List Article :=
  sortDesc (strategyScore strategy)
    (articles.filter (fun a => 0 < strategyScore strategy a))

/-- Constant `MAX_PER_FEED` (module level). -/
def MAX_PER_FEED : Nat := 5

/-- Constant `MAX_TOTAL` (module level). -/
def MAX_TOTAL : Nat := 20

/-- The string digested by `get_article_hash`:
`f"{article['title']}{article['link']}{article['content'][:200]}"`. -/
def hashInput (a : Article) : String :=
  a.title ++ a.link ++ String.mk (a.content.toList.take 200)

/-- Function `get_article_hash`, parameterised by the digest function (the source
calls `hashlib.md5(...).hexdigest()`, an external library; every theorem
below holds for an arbitrary digest, hence for MD5). -/
def get_article_hash (md5 : String → String) (a : Article) : String :=
  md5 (hashInput a)

/-- A value of the persisted history mapping: what `main` stores under
`processed_articles[article['hash']]`. -/
structure PRecord where
  title : String
  link : String
  processed_date : String
  strategy_used : String
deriving DecidableEq

/-- The in-memory history mapping, as an insertion-ordered association
list (Python dicts preserve insertion order; assigning to an existing
key keeps its position). -/
abbrev Store : Type := List (String × PRecord)

/-- Membership test on the store (`article_hash not in processed_articles`). -/
def storeMem (s : Store) (k : String) : Bool :=
  s.any (fun p => p.1 == k)

/-- Lookup in the store. -/
def storeLookup (s : Store) (k : String) : Option PRecord :=
  (s.find? (fun p => p.1 == k)).map (fun p => p.2)

/-- Python dict assignment `s[k] = v`: overwrite the entry in place
when the key exists (keeping its position), else append at the end
(dict keys are unique, so replacing the first occurrence is exact). -/
def storeInsert : Store → String → PRecord → Store
  | [], k, v => [(k, v)]
  | p :: t, k, v => if p.1 == k then (k, v) :: t else p :: storeInsert t k v

/-- The record `main` writes for a processed article
(`processed_date` is `datetime.now().isoformat()`, passed in as `now`). -/
def mkRecord (now : String) (strategy : Strategy) (a : Article) : PRecord :=
  { title := a.title
    link := a.link
    processed_date := now
    strategy_used := strategy.description }

/-- Function `fetch_articles_from_feed`, abstracted over network and XML parsing:
of the items a feed offers, only the first `MAX_PER_FEED` are kept
(`soup.find_all("item")[:MAX_PER_FEED]`); a fetch error yields `[]`,
representable as an empty item list. -/
def fetch_articles_from_feed (items : List Article) : List Article :=
  items.take MAX_PER_FEED

/-- The fetch loop of `main`: before each feed it stops if the pool
already holds at least `MAX_TOTAL` articles, otherwise extends the pool
with that feed's (per-feed-bounded) articles. -/
def assemblePoolGo (acc : List Article) : List (List Article) → List Article
  | [] => acc
  | f :: rest =>
      if MAX_TOTAL ≤ acc.length then acc
      else assemblePoolGo (acc ++ fetch_articles_from_feed f) rest

/-- The pool `all_articles` assembled by `main` from the feed sources. -/
def assemblePool (feeds : List (List Article)) : List Article :=
  assemblePoolGo [] feeds

/-- The dedupe step of `main`: keep the articles whose hash is not a key
of the loaded history store. -/
def newArticlesOf (md5 : String → String) (store : Store)
    (pool : List Article) : List Article :=
  pool.filter (fun a => ! storeMem store (get_article_hash md5 a))

/-- The strategy-filter step with the fallback of `main`: if no article
matches the current strategy, fall back to the whole new-article pool. -/
def strategyArticlesOf (strategy : Strategy) (newArticles : List Article) :
    List Article :=
  let sa := filter_articles_by_strategy newArticles strategy
  if sa.isEmpty then newArticles else sa

/-- The selection step of `main`:
`strategy_articles[:min(4, len(strategy_articles))]`. -/
def selectArticles (strategyArticles : List Article) : List Article :=
  strategyArticles.take (min 4 strategyArticles.length)

/-- The selected batch of a run, as a function of the digest, the hour,
the loaded store and the fetched pool. -/
def selectedOf (md5 : String → String) (hour : Nat) (store : Store)
    (pool : List Article) : List Article :=
  selectArticles
    (strategyArticlesOf (get_content_strategy hour) (newArticlesOf md5 store pool))

/-- The render-and-record loop of `main`. `renderOk` tells whether
`save_to_mdx` succeeds for an article; the source wraps the loop body in
no `try`, so a rendering exception propagates: the loop stops, the
remaining articles are neither rendered nor recorded, and the caller
(and hence the final `save_processed_articles`) is never reached.
Returns (articles rendered, in-memory store at exit, aborted?). -/
def processSelected (md5 : String → String) (now : String)
    (strategy : Strategy) (renderOk : Article → Bool) :
    Store → List Article → List Article × Store × Bool
  | store, [] => ([], store, false)
  | store, a :: rest =>
      if renderOk a then
        let store1 := storeInsert store (get_article_hash md5 a)
          (mkRecord now strategy a)
        let out := processSelected md5 now strategy renderOk store1 rest
        (a :: out.1, out.2)
      else ([], store, true)

/-- Outcome of one run of `main` past the fetch step. -/
structure RunOutcome where
  rendered : List Article
  finalStore : Store
  savedStore : Option Store
deriving DecidableEq

/-- One run of `main` after the pool has been assembled: dedupe against
the loaded store, early-return on an empty pool or no new articles
(without saving), strategy-filter with fallback, select up to 4,
render-and-record, and — only if no rendering exception aborted the
loop — save the updated store.  `savedStore = some s` means
`save_processed_articles` executed with contents `s`. -/
def runDigest (md5 : String → String) (now : String) (hour : Nat)
    (renderOk : Article → Bool) (store : Store) (pool : List Article) :
    RunOutcome :=
  if pool.isEmpty then ⟨[], store, none⟩
  else
    let newArticles := newArticlesOf md5 store pool
    if newArticles.isEmpty then ⟨[], store, none⟩
    else
      let selected := selectedOf md5 hour store pool
      let out := processSelected md5 now (get_content_strategy hour) renderOk
        store selected
      ⟨out.1, out.2.1, if out.2.2 then none else some out.2.1⟩

/-- A JSON value as returned by `json.load`, restricted to the shapes
relevant to the history file: an object of processing records, or any
other JSON value (array, string, number, ...), kept abstract with its
raw text. `json.load` happily returns non-object values. -/
inductive Json where
  | obj (entries : Store)
  | nonObject (raw : String)
deriving DecidableEq

/-- The on-disk state of `processed_articles.json` as observed by
`load_processed_articles`: absent (`os.path.exists` false), present but
unreadable (`IOError` on open/read), present but not valid JSON
(`json.JSONDecodeError`), or successfully parsed to a JSON value. -/
inductive HistoryFile where
  | missing
  | unreadable
  | notJson
  | parsed (v : Json)
deriving DecidableEq

/-- Function `load_processed_articles`: a missing file short-circuits to `{}`;
`JSONDecodeError` and `IOError` are caught and give `{}`; any parsed
JSON value — an object or not — is returned unchanged. -/
def load_processed_articles : HistoryFile → Json
  | .missing => .obj []
  | .unreadable => .obj []
  | .notJson => .obj []
  | .parsed v => v

/-- Lowercase hexadecimal digit, as `json.dump` emits in `\u00xx`
escapes. -/
def hexDig (n : Nat) : Char :=
  if n < 10 then Char.ofNat (48 + n) else Char.ofNat (87 + n)

/-- JSON string escaping of one character as performed by
`json.dump(..., ensure_ascii=False)`: quote, backslash and the named
control escapes get a two-character escape, the remaining control
characters a `\u00xx` escape, and every other character (ASCII or not)
is emitted verbatim. -/
def escChar (c : Char) : List Char :=
  if c = '"' then ['\\', '"']
  else if c = '\\' then ['\\', '\\']
  else if c = '\n' then ['\\', 'n']
  else if c = '\r' then ['\\', 'r']
  else if c = '\t' then ['\\', 't']
  else if c = Char.ofNat 8 then ['\\', 'b']
  else if c = Char.ofNat 12 then ['\\', 'f']
  else if c.toNat < 32 then
    ['\\', 'u', '0', '0', hexDig (c.toNat / 16), hexDig (c.toNat % 16)]
  else [c]

/-- JSON string escaping of a character sequence. -/
def escList : List Char → List Char
  | [] => []
  | c :: t => escChar c ++ escList t

/-- A JSON string literal: quote, escaped content, quote. -/
def quoteStr (s : String) : List Char :=
  '"' :: (escList s.toList ++ ['"'])

/-- The serialized form of one record value, exactly as
`json.dump(..., indent=2, ensure_ascii=False)` lays it out at nesting
depth one (dict literal order `title`, `link`, `processed_date`,
`strategy_used` fixed by `main`). -/
def dumpRecord (r : PRecord) : List Char :=
  "\x7b\n    \"title\": ".toList ++ quoteStr r.title
    ++ ",\n    \"link\": ".toList ++ quoteStr r.link
    ++ ",\n    \"processed_date\": ".toList ++ quoteStr r.processed_date
    ++ ",\n    \"strategy_used\": ".toList ++ quoteStr r.strategy_used
    ++ "\n  \x7d".toList

/-- One top-level key/value entry of the history object. -/
def dumpEntry (e : String × PRecord) : List Char :=
  "  ".toList ++ quoteStr e.1 ++ ": ".toList ++ dumpRecord e.2

/-- Entries after the first, each preceded by the `,\n` separator. -/
def dumpEntriesRest : Store → List Char
  | [] => []
  | e :: rest => ',' :: '\n' :: (dumpEntry e ++ dumpEntriesRest rest)

/-- All entries, `,\n`-separated. -/
def dumpEntries : Store → List Char
  | [] => []
  | e :: rest => dumpEntry e ++ dumpEntriesRest rest

/-- Function `save_processed_articles`: the byte content `json.dump(store, f,
indent=2, ensure_ascii=False)` writes on the history file (an empty
store serializes to `{}`). -/
def save_processed_articles (m : Store) : List Char :=
  match m with
  | [] => "\x7b\x7d".toList
  | _ :: _ => '{' :: '\n' :: (dumpEntries m ++ ['\n', '}'])

/-- Value of a lowercase hexadecimal digit. -/
def hexVal (c : Char) : Option Nat :=
  if 48 ≤ c.toNat ∧ c.toNat ≤ 57 then some (c.toNat - 48)
  else if 97 ≤ c.toNat ∧ c.toNat ≤ 102 then some (c.toNat - 87)
  else none

/-- Decode one escape sequence body (the characters after a `\`),
returning the decoded character and the remaining input. -/
def unescape : List Char → Option (Char × List Char)
  | '"' :: r => some ('"', r)
  | '\\' :: r => some ('\\', r)
  | 'n' :: r => some ('\n', r)
  | 'r' :: r => some ('\r', r)
  | 't' :: r => some ('\t', r)
  | 'b' :: r => some (Char.ofNat 8, r)
  | 'f' :: r => some (Char.ofNat 12, r)
  | 'u' :: h1 :: h2 :: h3 :: h4 :: r =>
      (match hexVal h1, hexVal h2, hexVal h3, hexVal h4 with
       | some a, some b, some c2, some d =>
           some (Char.ofNat (((a * 16 + b) * 16 + c2) * 16 + d), r)
       | _, _, _, _ => none)
  | _ => none

/-- JSON string-body parser: consumes characters (undoing escapes)
until the closing quote, returning the decoded content and the input
after the quote. -/
def parseStrAux : List Char → Option (List Char × List Char)
  | [] => none
  | '"' :: r => some ([], r)
  | '\\' :: r =>
      match h : unescape r with
      | none => none
      | some p => (parseStrAux p.2).map (fun q => (p.1 :: q.1, q.2))
  | c :: r => (parseStrAux r).map (fun p => (c :: p.1, p.2))
termination_by s => s.length
decreasing_by
  all_goals simp only [List.length_cons]
  · have hlen : p.2.length ≤ r.length := by
      unfold unescape at h
      split at h <;>
        first
          | (cases h; simp)
          | simp at h
          | (split at h <;> first | (cases h; simp; omega) | simp at h)
    omega
  · omega

/-- JSON string literal parser: an opening quote, then the body. -/
def parseString : List Char → Option (List Char × List Char)
  | '"' :: r => parseStrAux r
  | _ => none

/-- Consume an expected literal. -/
def expectLit (lit : List Char) (s : List Char) : Option (List Char) :=
  if listStartsWith lit s then some (s.drop lit.length) else none

/-- Parser for one serialized record value. -/
def parseRecord (s : List Char) : Option (PRecord × List Char) := do
  let s1 ← expectLit "\x7b\n    \"title\": ".toList s
  let (t, s2) ← parseString s1
  let s3 ← expectLit ",\n    \"link\": ".toList s2
  let (l, s4) ← parseString s3
  let s5 ← expectLit ",\n    \"processed_date\": ".toList s4
  let (d, s6) ← parseString s5
  let s7 ← expectLit ",\n    \"strategy_used\": ".toList s6
  let (u, s8) ← parseString s7
  let s9 ← expectLit "\n  \x7d".toList s8
  some (⟨String.mk t, String.mk l, String.mk d, String.mk u⟩, s9)

/-- Parser for one top-level entry. -/
def parseEntry (s : List Char) : Option ((String × PRecord) × List Char) := do
  let s1 ← expectLit "  ".toList s
  let (k, s2) ← parseString s1
  let s3 ← expectLit ": ".toList s2
  let (r, s4) ← parseRecord s3
  some ((String.mk k, r), s4)

/-- Parser for a `,\n`-separated entry sequence (fuelled; the fuel only
needs to exceed the number of entries). -/
def parseEntriesFuel : Nat → List Char → Option (Store × List Char)
  | 0, _ => none
  | fuel + 1, s => do
    let (e, s1) ← parseEntry s
    match expectLit ",\n".toList s1 with
    | some s2 => do
        let (rest, s3) ← parseEntriesFuel fuel s2
        some (e :: rest, s3)
    | none => some ([e], s1)

/-- Parser for a whole serialized history store, inverting
`save_processed_articles`. -/
def parseStore (s : List Char) : Option Store :=
  if s = "\x7b\x7d".toList then some []
  else do
    let s1 ← expectLit "\x7b\n".toList s
    let (m, s2) ← parseEntriesFuel s1.length s1
    let s3 ← expectLit "\n\x7d".toList s2
    if s3.isEmpty then some m else none

/-- The last article of a list whose fingerprint is `k` (the one whose
`record` survives in the store after the render-and-record loop). -/
def lastWithKey (md5 : String → String) (k : String) : List Article → Option Article
  | [] => none
  | a :: t =>
      match lastWithKey md5 k t with
      | some c => some c
      | none => if get_article_hash md5 a = k then some a else none

theorem insertDesc_perm {α : Type} (key : α → Nat) (a : α) (l : List α) :
    (insertDesc key a l).Perm (a :: l) := by
  induction l with
  | nil => simp [insertDesc]
  | cons b t ih =>
      by_cases h : key a < key b
      · simp only [insertDesc, if_pos h]
        exact (ih.cons b).trans (List.Perm.swap a b t)
      · simp [insertDesc, if_neg h]

theorem sortDesc_perm {α : Type} (key : α → Nat) (l : List α) :
    (sortDesc key l).Perm l := by
  induction l with
  | nil => simp [sortDesc]
  | cons a t ih =>
      exact (insertDesc_perm key a (sortDesc key t)).trans (ih.cons a)

theorem insertDesc_sorted {α : Type} (key : α → Nat) (a : α) (l : List α)
    (h : l.Pairwise (fun x y => key y ≤ key x)) :
    (insertDesc key a l).Pairwise (fun x y => key y ≤ key x) := by
  induction l with
  | nil => simp [insertDesc]
  | cons b t ih =>
      rcases List.pairwise_cons.mp h with ⟨hb, ht⟩
      by_cases hab : key a < key b
      · simp only [insertDesc, if_pos hab]
        refine List.pairwise_cons.mpr ⟨?_, ih ht⟩
        intro x hx
        rcases List.mem_cons.mp ((insertDesc_perm key a t).mem_iff.mp hx) with hx' | hx'
        · subst hx'; omega
        · exact hb x hx'
      · simp only [insertDesc, if_neg hab]
        push_neg at hab
        refine List.pairwise_cons.mpr ⟨?_, h⟩
        intro x hx
        rcases List.mem_cons.mp hx with hx' | hx'
        · subst hx'; omega
        · exact Nat.le_trans (hb x hx') hab

theorem sortDesc_sorted {α : Type} (key : α → Nat) (l : List α) :
    (sortDesc key l).Pairwise (fun x y => key y ≤ key x) := by
  induction l with
  | nil => simp [sortDesc]
  | cons a t ih => exact insertDesc_sorted key a (sortDesc key t) ih

theorem insertDesc_filter_key {α : Type} (key : α → Nat) (a : α) (l : List α)
    (n : Nat) :
    (insertDesc key a l).filter (fun x => key x = n) =
      (a :: l).filter (fun x => key x = n) := by
  induction l with
  | nil => simp [insertDesc]
  | cons b t ih =>
      by_cases hab : key a < key b
      · simp only [insertDesc, if_pos hab]
        by_cases ha : key a = n
        · have hb : ¬ key b = n := by omega
          simp only [List.filter_cons, ih]
          simp [ha, hb]
        · simp only [List.filter_cons, ih]
          by_cases hb : key b = n <;> simp [ha, hb, List.filter_cons]
      · simp [insertDesc, if_neg hab]

theorem sortDesc_filter_key {α : Type} (key : α → Nat) (l : List α) (n : Nat) :
    (sortDesc key l).filter (fun x => key x = n) =
      l.filter (fun x => key x = n) := by
  induction l with
  | nil => simp [sortDesc]
  | cons a t ih =>
      calc (insertDesc key a (sortDesc key t)).filter (fun x => key x = n)
          = (a :: sortDesc key t).filter (fun x => key x = n) :=
            insertDesc_filter_key key a (sortDesc key t) n
        _ = (a :: t).filter (fun x => key x = n) := by
            simp only [List.filter_cons]
            rw [ih]

theorem parseStrAux_bs (r : List Char) :
    parseStrAux ('\\' :: r) = (unescape r).bind
      (fun p => (parseStrAux p.2).map (fun q => (p.1 :: q.1, q.2))) := by
  rw [parseStrAux.eq_def]
  split
  · rename_i heq
    simp at heq
  · rename_i r2 heq
    simp at heq
  · rename_i r2 heq
    obtain rfl : r = r2 := by injection heq
    split <;> rename_i h <;> simp [h]
  · rename_i c r2 hne1 hne2 heq
    injection heq with he ht
    exact absurd he.symm hne2

theorem listStartsWith_append (lit rest : List Char) :
    listStartsWith lit (lit ++ rest) = true := by
  induction lit with
  | nil => simp [listStartsWith]
  | cons a t ih => simp [listStartsWith, ih]

theorem expectLit_append (lit rest : List Char) :
    expectLit lit (lit ++ rest) = some rest := by
  simp [expectLit, listStartsWith_append, List.drop_left]

theorem hexVal_hexDig (k : Nat) (h : k < 16) : hexVal (hexDig k) = some k := by
  interval_cases k <;> decide

theorem stringMk_toList (s : String) : String.mk s.toList = s := rfl

theorem parseStrAux_escChar (c : Char) (t rest : List Char)
    (ih : parseStrAux (escList t ++ '"' :: rest) = some (t, rest)) :
    parseStrAux (escChar c ++ (escList t ++ '"' :: rest)) = some (c :: t, rest) := by
  by_cases h1 : c = '"'
  · subst h1; simp [escChar, parseStrAux_bs, unescape, ih]
  by_cases h2 : c = '\\'
  · subst h2; simp [escChar, parseStrAux_bs, unescape, ih]
  by_cases h3 : c = '\n'
  · subst h3; simp [escChar, h1, h2, parseStrAux_bs, unescape, ih]
  by_cases h4 : c = '\r'
  · subst h4; simp [escChar, h1, h2, h3, parseStrAux_bs, unescape, ih]
  by_cases h5 : c = '\t'
  · subst h5; simp [escChar, h1, h2, h3, h4, parseStrAux_bs, unescape, ih]
  by_cases h6 : c = Char.ofNat 8
  · subst h6; simp [escChar, h1, h2, h3, h4, h5, parseStrAux_bs, unescape, ih]
  by_cases h7 : c = Char.ofNat 12
  · subst h7; simp [escChar, h1, h2, h3, h4, h5, h6, parseStrAux_bs, unescape, ih]
  by_cases h8 : c.toNat < 32
  · have hdiv : c.toNat / 16 < 16 := by omega
    have hmod : c.toNat % 16 < 16 := by omega
    have h0 : hexVal '0' = some 0 := by decide
    simp only [escChar, if_neg h1, if_neg h2, if_neg h3, if_neg h4, if_neg h5,
      if_neg h6, if_neg h7, if_pos h8]
    simp only [List.cons_append, List.nil_append]
    simp only [parseStrAux_bs, unescape, h0, hexVal_hexDig _ hdiv,
      hexVal_hexDig _ hmod, ih, Option.map_some, Option.some_bind]
    rw [show ((0 * 16 + 0) * 16 + c.toNat / 16) * 16 + c.toNat % 16
          = c.toNat by omega]
    rw [Char.ofNat_toNat]
    rfl
  · simp only [escChar, if_neg h1, if_neg h2, if_neg h3, if_neg h4, if_neg h5,
      if_neg h6, if_neg h7, if_neg h8]
    simp [parseStrAux, h1, h2, ih]

theorem parseStrAux_escList (v rest : List Char) :
    parseStrAux (escList v ++ '"' :: rest) = some (v, rest) := by
  induction v with
  | nil => simp [escList, parseStrAux]
  | cons c t ih =>
      simpa [escList, List.append_assoc] using parseStrAux_escChar c t rest ih

theorem parseString_quote (s : String) (rest : List Char) :
    parseString (quoteStr s ++ rest) = some (s.toList, rest) := by
  simp [quoteStr, parseString, List.append_assoc]
  simpa using parseStrAux_escList s.toList rest

theorem parseRecord_dump (r : PRecord) (rest : List Char) :
    parseRecord (dumpRecord r ++ rest) = some (r, rest) := by
  simp only [dumpRecord, parseRecord, List.append_assoc]
  rw [expectLit_append]
  simp only [Option.bind_eq_bind, Option.some_bind, parseString_quote]
  rw [expectLit_append]
  simp only [Option.some_bind, parseString_quote]
  rw [expectLit_append]
  simp only [Option.some_bind, parseString_quote]
  rw [expectLit_append]
  simp only [Option.some_bind, parseString_quote]
  rw [expectLit_append]
  simp [stringMk_toList]

theorem parseEntry_dump (e : String × PRecord) (rest : List Char) :
    parseEntry (dumpEntry e ++ rest) = some (e, rest) := by
  simp only [dumpEntry, parseEntry, List.append_assoc]
  rw [expectLit_append]
  simp only [Option.bind_eq_bind, Option.some_bind, parseString_quote]
  rw [expectLit_append]
  simp only [Option.some_bind, parseRecord_dump]
  simp [stringMk_toList]

theorem dumpEntriesRest_eq (e : String × PRecord) (rest : Store) :
    dumpEntriesRest (e :: rest) = ',' :: '\n' :: dumpEntries (e :: rest) := by
  simp [dumpEntriesRest, dumpEntries]

theorem one_le_length_dumpEntry (e : String × PRecord) :
    1 ≤ (dumpEntry e).length := by
  have hx : ("  ".toList).length = 2 := rfl
  simp only [dumpEntry, List.length_append, hx]
  omega

theorem length_le_dumpEntriesRest (m : Store) :
    m.length ≤ (dumpEntriesRest m).length := by
  induction m with
  | nil => simp [dumpEntriesRest]
  | cons e rest ih =>
      have h2 := one_le_length_dumpEntry e
      simp only [dumpEntriesRest, List.length_cons, List.length_append]
      omega

theorem length_le_dumpEntries (m : Store) :
    m.length ≤ (dumpEntries m).length := by
  cases m with
  | nil => simp [dumpEntries]
  | cons e rest =>
      have h2 := one_le_length_dumpEntry e
      have := length_le_dumpEntriesRest rest
      simp only [dumpEntries, List.length_cons, List.length_append]
      omega

theorem parseEntriesFuel_dump (m : Store) (suffix : List Char) :
    ∀ fuel : Nat, m ≠ [] → m.length ≤ fuel →
      listStartsWith ",\n".toList suffix = false →
      parseEntriesFuel fuel (dumpEntries m ++ suffix) = some (m, suffix) := by
  induction m with
  | nil => intro fuel hm; exact absurd rfl hm
  | cons e rest ih =>
      intro fuel hm hf hs
      have hs2 : listStartsWith [',', '\n'] suffix = false := hs
      match fuel with
      | 0 => simp at hf
      | fuel1 + 1 =>
          cases rest with
          | nil =>
              simp only [dumpEntries, dumpEntriesRest, List.append_nil]
              simp only [parseEntriesFuel, parseEntry_dump, Option.bind_eq_bind,
                Option.some_bind]
              have hnone : expectLit [',', '\n'] suffix = none := by
                simp [expectLit, hs2]
              simp [hnone]
          | cons f rest2 =>
              simp only [dumpEntries, dumpEntriesRest_eq, List.append_assoc,
                List.cons_append]
              simp only [parseEntriesFuel, parseEntry_dump, Option.bind_eq_bind,
                Option.some_bind]
              have hexp : expectLit ",\n".toList
                  (',' :: '\n' :: (dumpEntry f ++ (dumpEntriesRest rest2 ++ suffix))) =
                  some (dumpEntry f ++ (dumpEntriesRest rest2 ++ suffix)) := by
                have hshape :
                    (',' :: '\n' :: (dumpEntry f ++ (dumpEntriesRest rest2 ++ suffix))) =
                    ",\n".toList ++ (dumpEntry f ++ (dumpEntriesRest rest2 ++ suffix)) := rfl
                rw [hshape, expectLit_append]
              rw [hexp]
              have hlen : (f :: rest2).length ≤ fuel1 := by
                simp only [List.length_cons] at hf ⊢
                omega
              have heq : dumpEntry f ++ (dumpEntriesRest rest2 ++ suffix) =
                  dumpEntries (f :: rest2) ++ suffix := by
                simp [dumpEntries, List.append_assoc]
              simp only [heq, ih fuel1 (List.cons_ne_nil f rest2) hlen hs,
                Option.bind_eq_bind, Option.some_bind]

theorem parseStore_save (m : Store) :
    parseStore (save_processed_articles m) = some m := by
  cases m with
  | nil => rfl
  | cons e rest =>
      have hne : save_processed_articles (e :: rest) ≠ "\x7b\x7d".toList := by
        intro hcontra
        simp only [save_processed_articles] at hcontra
        have : '\n' = '}' := by
          have := List.cons.inj hcontra
          exact (List.cons.inj this.2).1
        simp at this
      simp only [save_processed_articles] at hne ⊢
      rw [parseStore, if_neg hne]
      have hshape : ('{' :: '\n' :: (dumpEntries (e :: rest) ++ ['\n', '}'])) =
          "\x7b\n".toList ++ (dumpEntries (e :: rest) ++ ['\n', '}']) := rfl
      rw [hshape, expectLit_append]
      have hfe : parseEntriesFuel (dumpEntries (e :: rest) ++ ['\n', '}']).length
          (dumpEntries (e :: rest) ++ ['\n', '}']) = some (e :: rest, ['\n', '}']) := by
        apply parseEntriesFuel_dump (e :: rest) ['\n', '}']
        · exact List.cons_ne_nil e rest
        · have h1 := length_le_dumpEntries (e :: rest)
          simp only [List.length_append]
          omega
        · decide
      simp only [Option.bind_eq_bind, Option.some_bind, hfe]
      have hend : expectLit ['\n', '}'] ['\n', '}'] = some [] := by decide
      simp [hend]

theorem storeLookup_cons (p : String × PRecord) (t : Store) (k : String) :
    storeLookup (p :: t) k =
      if p.1 = k then some p.2 else storeLookup t k := by
  by_cases h : p.1 = k
  · simp [storeLookup, List.find?_cons_of_pos, h]
  · simp [storeLookup, List.find?_cons_of_neg, h]

theorem storeLookup_insert_self (s : Store) (k : String) (v : PRecord) :
    storeLookup (storeInsert s k v) k = some v := by
  induction s with
  | nil => simp [storeInsert, storeLookup]
  | cons p t ih =>
      by_cases h : p.1 = k
      · simp [storeInsert, h, storeLookup_cons]
      · rw [storeInsert, if_neg (by simpa using h), storeLookup_cons, if_neg h]
        exact ih

theorem storeLookup_insert_ne (s : Store) (k k2 : String) (v : PRecord)
    (h : k2 ≠ k) :
    storeLookup (storeInsert s k v) k2 = storeLookup s k2 := by
  induction s with
  | nil =>
      rw [storeInsert, storeLookup_cons, if_neg (Ne.symm h)]
  | cons p t ih =>
      by_cases hp : p.1 = k
      · rw [storeInsert, if_pos (by simpa using hp), storeLookup_cons,
          storeLookup_cons]
        rw [if_neg (Ne.symm h), if_neg (by rw [hp]; exact Ne.symm h)]
      · rw [storeInsert, if_neg (by simpa using hp), storeLookup_cons,
          storeLookup_cons]
        by_cases hp2 : p.1 = k2
        · rw [if_pos hp2, if_pos hp2]
        · rw [if_neg hp2, if_neg hp2]
          exact ih

theorem storeMem_insert_iff (s : Store) (k k2 : String) (v : PRecord) :
    storeMem (storeInsert s k v) k2 = true ↔
      (storeMem s k2 = true ∨ k2 = k) := by
  induction s with
  | nil =>
      simp only [storeInsert, storeMem, List.any_nil, List.any_cons,
        Bool.or_false, beq_iff_eq, Bool.false_eq_true, false_or]
      exact eq_comm
  | cons p t ih =>
      by_cases hp : p.1 = k
      · rw [storeInsert, if_pos (by simpa using hp)]
        subst hp
        simp only [storeMem, List.any_cons, beq_iff_eq, Bool.or_eq_true] at *
        constructor
        · rintro (hk | ht)
          · exact Or.inr hk.symm
          · exact Or.inl (Or.inr ht)
        · rintro ((hk | ht) | hk)
          · exact Or.inl hk
          · exact Or.inr ht
          · exact Or.inl hk.symm
      · rw [storeInsert, if_neg (by simpa using hp)]
        simp only [storeMem, List.any_cons, beq_iff_eq, Bool.or_eq_true] at *
        constructor
        · rintro (hk | ht)
          · exact Or.inl (Or.inl hk)
          · rcases ih.mp ht with h1 | h1
            · exact Or.inl (Or.inr h1)
            · exact Or.inr h1
        · rintro ((hk | ht) | hk)
          · exact Or.inl hk
          · exact Or.inr (ih.mpr (Or.inl ht))
          · exact Or.inr (ih.mpr (Or.inr hk))

theorem processSelected_all_ok (md5 : String → String) (now : String)
    (strategy : Strategy) (renderOk : Article → Bool) :
    ∀ (sel : List Article) (store : Store),
      (∀ a ∈ sel, renderOk a = true) →
      (processSelected md5 now strategy renderOk store sel).1 = sel ∧
      (processSelected md5 now strategy renderOk store sel).2.2 = false := by
  intro sel
  induction sel with
  | nil => intro store hok; simp [processSelected]
  | cons a rest ih =>
      intro store hok
      have ha := hok a (List.mem_cons_self a rest)
      have hrest := fun b hb => hok b (List.mem_cons_of_mem a hb)
      simp only [processSelected, ha, if_true]
      constructor
      · simp [(ih _ hrest).1]
      · simp [(ih _ hrest).2]

theorem processSelected_rendered_subset (md5 : String → String) (now : String)
    (strategy : Strategy) (renderOk : Article → Bool) :
    ∀ (sel : List Article) (store : Store) (a : Article),
      a ∈ (processSelected md5 now strategy renderOk store sel).1 → a ∈ sel := by
  intro sel
  induction sel with
  | nil => intro store a ha; simpa [processSelected] using ha
  | cons b rest ih =>
      intro store a ha
      by_cases hb : renderOk b = true
      · simp only [processSelected, hb, if_true] at ha
        rcases List.mem_cons.mp ha with h1 | h1
        · exact h1 ▸ List.mem_cons_self b rest
        · exact List.mem_cons_of_mem b (ih _ a h1)
      · simp only [processSelected, if_neg hb] at ha
        simp at ha

theorem processSelected_mem_mono (md5 : String → String) (now : String)
    (strategy : Strategy) (renderOk : Article → Bool) (k : String) :
    ∀ (sel : List Article) (store : Store),
      storeMem store k = true →
      storeMem (processSelected md5 now strategy renderOk store sel).2.1 k = true := by
  intro sel
  induction sel with
  | nil => intro store hm; simpa [processSelected] using hm
  | cons b rest ih =>
      intro store hm
      by_cases hb : renderOk b = true
      · simp only [processSelected, hb, if_true]
        exact ih _ ((storeMem_insert_iff _ _ _ _).mpr (Or.inl hm))
      · simpa [processSelected, if_neg hb] using hm

theorem processSelected_mem_store (md5 : String → String) (now : String)
    (strategy : Strategy) (renderOk : Article → Bool) :
    ∀ (sel : List Article) (store : Store) (a : Article),
      a ∈ (processSelected md5 now strategy renderOk store sel).1 →
      storeMem (processSelected md5 now strategy renderOk store sel).2.1
        (get_article_hash md5 a) = true := by
  intro sel
  induction sel with
  | nil => intro store a ha; simp [processSelected] at ha
  | cons b rest ih =>
      intro store a ha
      by_cases hb : renderOk b = true
      · simp only [processSelected, hb, if_true] at ha ⊢
        rcases List.mem_cons.mp ha with h1 | h1
        · subst h1
          exact processSelected_mem_mono md5 now strategy renderOk _ rest _
            ((storeMem_insert_iff _ _ _ _).mpr (Or.inr rfl))
        · exact ih _ a h1
      · simp only [processSelected, if_neg hb] at ha
        simp at ha

theorem processSelected_lookup_nokey (md5 : String → String) (now : String)
    (strategy : Strategy) (renderOk : Article → Bool) (k : String) :
    ∀ (sel : List Article) (store : Store),
      (∀ c ∈ sel, get_article_hash md5 c ≠ k) →
      storeLookup (processSelected md5 now strategy renderOk store sel).2.1 k =
        storeLookup store k := by
  intro sel
  induction sel with
  | nil => intro store hno; simp [processSelected]
  | cons b rest ih =>
      intro store hno
      by_cases hb : renderOk b = true
      · simp only [processSelected, hb, if_true]
        rw [ih _ (fun c hc => hno c (List.mem_cons_of_mem b hc))]
        exact storeLookup_insert_ne _ _ _ _
          (fun hc => hno b (List.mem_cons_self b rest) hc.symm)
      · simp [processSelected, if_neg hb]

theorem processSelected_lookup_last (md5 : String → String) (now : String)
    (strategy : Strategy) (renderOk : Article → Bool) (k : String) :
    ∀ (sel : List Article) (store : Store),
      (∀ a ∈ sel, renderOk a = true) →
      storeLookup (processSelected md5 now strategy renderOk store sel).2.1 k =
        (match lastWithKey md5 k sel with
         | some c => some (mkRecord now strategy c)
         | none => storeLookup store k) := by
  intro sel
  induction sel with
  | nil => intro store hok; simp [processSelected, lastWithKey]
  | cons b rest ih =>
      intro store hok
      have hb := hok b (List.mem_cons_self b rest)
      simp only [processSelected, hb, if_true]
      rw [ih _ (fun c hc => hok c (List.mem_cons_of_mem b hc))]
      simp only [lastWithKey]
      cases hlast : lastWithKey md5 k rest with
      | some c => rfl
      | none =>
          by_cases hk : get_article_hash md5 b = k
          · subst hk
            simp [storeLookup_insert_self]
          · simp only [if_neg hk]
            exact storeLookup_insert_ne _ _ _ _ (fun hc => hk hc.symm)

theorem mem_filter_articles_by_strategy {a : Article} {articles : List Article}
    {strategy : Strategy}
    (h : a ∈ filter_articles_by_strategy articles strategy) : a ∈ articles := by
  have h2 := (sortDesc_perm (strategyScore strategy)
    (articles.filter (fun x => 0 < strategyScore strategy x))).mem_iff.mp h
  exact List.mem_of_mem_filter h2

theorem mem_strategyArticlesOf {a : Article} {strategy : Strategy}
    {newArticles : List Article}
    (h : a ∈ strategyArticlesOf strategy newArticles) : a ∈ newArticles := by
  simp only [strategyArticlesOf] at h
  split at h
  · exact h
  · exact mem_filter_articles_by_strategy h

theorem mem_selectedOf {md5 : String → String} {hour : Nat} {store : Store}
    {pool : List Article} {a : Article}
    (h : a ∈ selectedOf md5 hour store pool) :
    a ∈ newArticlesOf md5 store pool := by
  unfold selectedOf selectArticles at h
  exact mem_strategyArticlesOf (List.mem_of_mem_take h)

theorem newArticlesOf_not_mem {md5 : String → String} {store : Store}
    {pool : List Article} {a : Article}
    (hmem : storeMem store (get_article_hash md5 a) = true) :
    a ∉ newArticlesOf md5 store pool := by
  intro hin
  have := List.of_mem_filter hin
  simp [hmem] at this

theorem newArticlesOf_pred {md5 : String → String} {store : Store}
    {pool : List Article} {a : Article}
    (hin : a ∈ newArticlesOf md5 store pool) :
    storeMem store (get_article_hash md5 a) = false := by
  have := List.of_mem_filter hin
  simpa using this

theorem runDigest_rendered_selected {md5 : String → String} {now : String}
    {hour : Nat} {renderOk : Article → Bool} {store : Store}
    {pool : List Article} {a : Article}
    (h : a ∈ (runDigest md5 now hour renderOk store pool).rendered) :
    a ∈ selectedOf md5 hour store pool := by
  simp only [runDigest] at h
  split at h
  · simp at h
  · split at h
    · simp at h
    · exact processSelected_rendered_subset md5 now (get_content_strategy hour)
        renderOk _ store a h

theorem runDigest_rendered_new {md5 : String → String} {now : String}
    {hour : Nat} {renderOk : Article → Bool} {store : Store}
    {pool : List Article} {a : Article}
    (h : a ∈ (runDigest md5 now hour renderOk store pool).rendered) :
    a ∈ newArticlesOf md5 store pool :=
  mem_selectedOf (runDigest_rendered_selected h)

theorem selectArticles_eq_take (l : List Article) :
    selectArticles l = l.take 4 := by
  unfold selectArticles
  rcases Nat.le_total 4 l.length with h | h
  · rw [Nat.min_eq_left h]
  · rw [Nat.min_eq_right h, List.take_length, List.take_of_length_le h]

theorem take_four_ne_nil {l : List Article} (h : l ≠ []) : l.take 4 ≠ [] := by
  cases l with
  | nil => exact absurd rfl h
  | cons a t => simp [List.take]

theorem runDigest_empty_pool (md5 : String → String) (now : String) (hour : Nat)
    (renderOk : Article → Bool) (store : Store) (pool : List Article)
    (h1 : pool.isEmpty = true) :
    runDigest md5 now hour renderOk store pool = ⟨[], store, none⟩ := by
  simp [runDigest, h1]

theorem runDigest_empty_new (md5 : String → String) (now : String) (hour : Nat)
    (renderOk : Article → Bool) (store : Store) (pool : List Article)
    (h2 : (newArticlesOf md5 store pool).isEmpty = true) :
    runDigest md5 now hour renderOk store pool = ⟨[], store, none⟩ := by
  by_cases h1 : pool.isEmpty = true
  · simp [runDigest, h1]
  · simp [runDigest, h1, h2]

theorem runDigest_eq_main (md5 : String → String) (now : String) (hour : Nat)
    (renderOk : Article → Bool) (store : Store) (pool : List Article)
    (h1 : pool.isEmpty = false)
    (h2 : (newArticlesOf md5 store pool).isEmpty = false) :
    runDigest md5 now hour renderOk store pool =
      ⟨(processSelected md5 now (get_content_strategy hour) renderOk store
          (selectedOf md5 hour store pool)).1,
       (processSelected md5 now (get_content_strategy hour) renderOk store
          (selectedOf md5 hour store pool)).2.1,
       if (processSelected md5 now (get_content_strategy hour) renderOk store
            (selectedOf md5 hour store pool)).2.2 = true then none
       else some (processSelected md5 now (get_content_strategy hour) renderOk store
          (selectedOf md5 hour store pool)).2.1⟩ := by
  simp [runDigest, h1, h2]

theorem runDigest_lookup_unchanged (md5 : String → String) (now : String)
    (hour : Nat) (renderOk : Article → Bool) (store : Store)
    (pool : List Article) (a : Article)
    (hmem : storeMem store (get_article_hash md5 a) = true) :
    storeLookup (runDigest md5 now hour renderOk store pool).finalStore
        (get_article_hash md5 a) =
      storeLookup store (get_article_hash md5 a) := by
  by_cases h1 : pool.isEmpty = true
  · rw [runDigest_empty_pool md5 now hour renderOk store pool h1]
  by_cases h2 : (newArticlesOf md5 store pool).isEmpty = true
  · rw [runDigest_empty_new md5 now hour renderOk store pool h2]
  rw [runDigest_eq_main md5 now hour renderOk store pool
    (Bool.not_eq_true _ ▸ h1) (Bool.not_eq_true _ ▸ h2)]
  apply processSelected_lookup_nokey
  intro c hc hck
  have hpred := newArticlesOf_pred (mem_selectedOf hc)
  rw [hck, hmem] at hpred
  exact Bool.true_eq_false.mp hpred

/-- C2: for every hour in [0,23], `get_content_strategy` returns exactly
one of the four strategies, with [6,11] ↦ morning, [12,17] ↦ afternoon,
[18,23] ↦ evening and [0,5] ↦ night; the `iff` direction of each range
conjunct (with the four strategy values pairwise distinct) gives that
the ranges partition [0,23] with no gap or overlap.  The function is a
pure mapping from the hour (modelled as an explicit argument). -/
theorem claim_C2_strategy_selector : ∀ h : Fin 24,
    (get_content_strategy h.val = morningStrategy ∨
     get_content_strategy h.val = afternoonStrategy ∨
     get_content_strategy h.val = eveningStrategy ∨
     get_content_strategy h.val = nightStrategy) ∧
    ((6 ≤ h.val ∧ h.val ≤ 11) ↔ get_content_strategy h.val = morningStrategy) ∧
    ((12 ≤ h.val ∧ h.val ≤ 17) ↔ get_content_strategy h.val = afternoonStrategy) ∧
    ((18 ≤ h.val ∧ h.val ≤ 23) ↔ get_content_strategy h.val = eveningStrategy) ∧
    (h.val ≤ 5 ↔ get_content_strategy h.val = nightStrategy) ∧
    morningStrategy ≠ afternoonStrategy ∧ morningStrategy ≠ eveningStrategy ∧
    morningStrategy ≠ nightStrategy ∧ afternoonStrategy ≠ eveningStrategy ∧
    afternoonStrategy ≠ nightStrategy ∧ eveningStrategy ≠ nightStrategy := by
  decide

/-- C1: `filter_articles_by_strategy` returns exactly the articles with
positive score (as a permutation of the positive-score sublist), in
descending score order, and stably: for every score value, the
sub-sequence of articles with that score equals the corresponding
sub-sequence of the input, so equal-score articles keep their original
relative order.  The concrete conjunct is the [2,0,1] scenario: the
score-2 article first, the score-0 article dropped, the score-1 article
second. -/
theorem claim_C1_scorer : (∀ (articles : List Article) (strategy : Strategy),
      (filter_articles_by_strategy articles strategy).Perm
        (articles.filter (fun a => 0 < strategyScore strategy a)) ∧
      (filter_articles_by_strategy articles strategy).Pairwise
        (fun x y => strategyScore strategy y ≤ strategyScore strategy x) ∧
      (∀ n : Nat,
        (filter_articles_by_strategy articles strategy).filter
            (fun x => strategyScore strategy x = n) =
          articles.filter
            (fun x => 0 < strategyScore strategy x ∧ strategyScore strategy x = n))) ∧
    strategyScore morningStrategy ⟨"React and Vue compared", "L1", "P1", "frameworks"⟩ = 2 ∧
    strategyScore morningStrategy ⟨"Cooking pasta", "L2", "P2", "dinner ideas"⟩ = 0 ∧
    strategyScore morningStrategy ⟨"Vue basics", "L3", "P3", "an intro"⟩ = 1 ∧
    filter_articles_by_strategy
      [⟨"React and Vue compared", "L1", "P1", "frameworks"⟩,
       ⟨"Cooking pasta", "L2", "P2", "dinner ideas"⟩,
       ⟨"Vue basics", "L3", "P3", "an intro"⟩] morningStrategy =
      [⟨"React and Vue compared", "L1", "P1", "frameworks"⟩,
       ⟨"Vue basics", "L3", "P3", "an intro"⟩] := by
  refine ⟨?_, by decide, by decide, by decide, by decide⟩
  intro articles strategy
  refine ⟨sortDesc_perm _ _, sortDesc_sorted _ _, ?_⟩
  intro n
  have h := sortDesc_filter_key (strategyScore strategy)
    (articles.filter (fun a => 0 < strategyScore strategy a)) n
  rw [filter_articles_by_strategy, h, List.filter_filter]
  congr 1
  funext x
  by_cases h1 : strategyScore strategy x = n <;>
    by_cases h2 : 0 < strategyScore strategy x <;> simp [h1, h2]

/-- C5 counterexample: a history file whose content is the valid JSON
text `[]` — not well-formed persisted data, which is an object of
records — is returned by `load_processed_articles` unchanged (Python's
`json.load` succeeds and the value is returned as-is); the result is
not an empty mapping, and not an object at all. -/
theorem claim_C5_counterexample :
    load_processed_articles (.parsed (.nonObject "[]")) = .nonObject "[]" ∧
    (∀ m : Store, load_processed_articles (.parsed (.nonObject "[]")) ≠ .obj m) := by
  constructor
  · rfl
  · intro m h
    simp [load_processed_articles] at h

/-- C5 amended: for a history file that is missing, unreadable
(`IOError`), or whose content is not valid JSON (`JSONDecodeError`),
`load_processed_articles` returns an empty mapping and raises nothing
(it is total in the model); content that parses as JSON is returned
unchanged, so a non-object JSON value is passed through rather than
replaced by an empty mapping. -/
theorem claim_C5_load_self_healing :
    load_processed_articles .missing = .obj [] ∧
    load_processed_articles .unreadable = .obj [] ∧
    load_processed_articles .notJson = .obj [] ∧
    (∀ v : Json, load_processed_articles (.parsed v) = v) :=
  ⟨rfl, rfl, rfl, fun _ => rfl⟩

/-- C9: the byte content written by `save_processed_articles` parses
back to exactly the store that was saved (`parseStore` inverts the
serializer), `load_processed_articles` returns a parsed object
unchanged, and re-serializing the loaded store reproduces the original
bytes byte-for-byte — so `save(load())` applied twice with no
intervening `record()` is a no-op on the file content. -/
theorem claim_C9_roundtrip : ∀ m : Store,
    parseStore (save_processed_articles m) = some m ∧
    load_processed_articles (.parsed (.obj m)) = .obj m ∧
    save_processed_articles ((parseStore (save_processed_articles m)).getD []) =
      save_processed_articles m := by
  intro m
  refine ⟨parseStore_save m, rfl, ?_⟩
  rw [parseStore_save m]
  rfl

/-- C7: the fingerprint is a function of title, link and the first 200
characters of content only — for every digest function, two articles
agreeing on those three components (e.g. differing only in `published`)
get the same hash — and when that fingerprint is already recorded in
the loaded history store, the second article is discarded at the dedupe
step of any run. -/
theorem claim_C7_fingerprint :
    ∀ (md5 : String → String) (a b : Article),
      a.title = b.title → a.link = b.link →
      a.content.toList.take 200 = b.content.toList.take 200 →
      (get_article_hash md5 a = get_article_hash md5 b ∧
       ∀ (store : Store) (pool : List Article),
         storeMem store (get_article_hash md5 a) = true →
         b ∉ newArticlesOf md5 store pool) := by
  intro md5 a b ht hl hc
  have hh : get_article_hash md5 a = get_article_hash md5 b := by
    unfold get_article_hash hashInput
    rw [ht, hl, hc]
  refine ⟨hh, fun store pool hmem => newArticlesOf_not_mem ?_⟩
  rwa [← hh]

/-- Witness for C7: two concrete articles identical except for their
`published` timestamps share a fingerprint, and with that fingerprint
recorded in the store the second one is dropped by the dedupe filter. -/
theorem claim_C7_fingerprint_witness :
    get_article_hash id ⟨"T", "L", "2024-01-01", "C"⟩ =
      get_article_hash id ⟨"T", "L", "2025-06-30", "C"⟩ ∧
    (⟨"T", "L", "2025-06-30", "C"⟩ : Article) ∉ newArticlesOf id
      [(get_article_hash id ⟨"T", "L", "2024-01-01", "C"⟩,
        ⟨"T", "L", "2024-01-01T09:00:00", "desc"⟩)]
      [⟨"T", "L", "2025-06-30", "C"⟩] := by
  have h := claim_C7_fingerprint id ⟨"T", "L", "2024-01-01", "C"⟩
    ⟨"T", "L", "2025-06-30", "C"⟩ rfl rfl rfl
  exact ⟨h.1, h.2 _ _ (by decide)⟩

/-- C8 counterexample: the fetch loop checks the `MAX_TOTAL` bound
*before* fetching the next feed, so with four feeds contributing
5+5+5+4 = 19 < 20 articles, a fifth full feed is still fetched and the
pool reaches 24 > `MAX_TOTAL` articles. -/
theorem claim_C8_counterexample :
    MAX_TOTAL <
      (assemblePool
        [List.replicate 5 ⟨"t", "l", "p", "c"⟩,
         List.replicate 5 ⟨"t", "l", "p", "c"⟩,
         List.replicate 5 ⟨"t", "l", "p", "c"⟩,
         List.replicate 4 ⟨"t", "l", "p", "c"⟩,
         List.replicate 5 ⟨"t", "l", "p", "c"⟩]).length ∧
    (assemblePool
        [List.replicate 5 ⟨"t", "l", "p", "c"⟩,
         List.replicate 5 ⟨"t", "l", "p", "c"⟩,
         List.replicate 5 ⟨"t", "l", "p", "c"⟩,
         List.replicate 4 ⟨"t", "l", "p", "c"⟩,
         List.replicate 5 ⟨"t", "l", "p", "c"⟩]).length = 24 := by
  constructor <;> decide

theorem assemblePoolGo_bound (fs : List (List Article)) :
    ∀ acc : List Article, acc.length ≤ MAX_TOTAL + MAX_PER_FEED - 1 →
      (assemblePoolGo acc fs).length ≤ MAX_TOTAL + MAX_PER_FEED - 1 := by
  induction fs with
  | nil => intro acc hacc; simpa [assemblePoolGo] using hacc
  | cons f rest ih =>
      intro acc hacc
      by_cases hb : MAX_TOTAL ≤ acc.length
      · simpa [assemblePoolGo, hb] using hacc
      · rw [assemblePoolGo, if_neg hb]
        apply ih
        have h5 : (fetch_articles_from_feed f).length ≤ MAX_PER_FEED := by
          simp [fetch_articles_from_feed, List.length_take]
        simp only [List.length_append]
        simp only [MAX_TOTAL, MAX_PER_FEED] at *
        omega

/-- C8 amended: each feed contributes at most `MAX_PER_FEED` (5)
articles, and the assembled pool holds at most
`MAX_TOTAL + MAX_PER_FEED - 1` (24) articles — the loop stops fetching
once the pool has reached `MAX_TOTAL`, but because the bound is checked
before a fetch and a fetch adds up to `MAX_PER_FEED` articles, the pool
can exceed `MAX_TOTAL` by up to `MAX_PER_FEED - 1`. -/
theorem claim_C8_fetch_bounds :
    (∀ items : List Article,
      (fetch_articles_from_feed items).length ≤ MAX_PER_FEED) ∧
    (∀ feeds : List (List Article),
      (assemblePool feeds).length ≤ MAX_TOTAL + MAX_PER_FEED - 1) := by
  constructor
  · intro items
    simp [fetch_articles_from_feed, List.length_take]
  · intro feeds
    apply assemblePoolGo_bound
    simp [MAX_TOTAL, MAX_PER_FEED]

/-- C4: whenever the scorer comes back empty on a non-empty pool of new
articles, the coordinator substitutes the whole new-article pool in
original order and selects its first four articles; and in every case a
non-empty new-article pool yields a non-empty selected batch. -/
theorem claim_C4_fallback :
    ∀ (md5 : String → String) (hour : Nat) (store : Store) (pool : List Article),
      newArticlesOf md5 store pool ≠ [] →
      ((filter_articles_by_strategy (newArticlesOf md5 store pool)
          (get_content_strategy hour) = [] →
        selectedOf md5 hour store pool = (newArticlesOf md5 store pool).take 4) ∧
       selectedOf md5 hour store pool ≠ []) := by
  intro md5 hour store pool hne
  constructor
  · intro hempty
    unfold selectedOf
    rw [selectArticles_eq_take]
    unfold strategyArticlesOf
    rw [hempty]
    simp
  · unfold selectedOf
    rw [selectArticles_eq_take]
    apply take_four_ne_nil
    simp only [strategyArticlesOf]
    split
    · exact hne
    · rename_i hne2
      simpa using hne2

/-- Witness for C4: a single new article matching no night-strategy
keyword: the scorer result is empty, the fallback selects the article
itself, and the selection is non-empty. -/
theorem claim_C4_fallback_witness :
    newArticlesOf id [] [⟨"T", "L", "P", "C"⟩] ≠ [] ∧
    filter_articles_by_strategy (newArticlesOf id [] [⟨"T", "L", "P", "C"⟩])
      (get_content_strategy 3) = [] ∧
    selectedOf id 3 [] [⟨"T", "L", "P", "C"⟩] =
      (newArticlesOf id [] [⟨"T", "L", "P", "C"⟩]).take 4 ∧
    selectedOf id 3 [] [⟨"T", "L", "P", "C"⟩] ≠ [] := by
  have h := claim_C4_fallback id 3 [] [⟨"T", "L", "P", "C"⟩] (by decide)
  exact ⟨by decide, by decide, h.1 (by decide), h.2⟩

/-- C3: if run 1 rendered article `a` and saved its history as `s1`,
then any article `b` with the same fingerprint is, in a subsequent run
that loads `s1`: found in the loaded store, discarded at the dedupe
step, never rendered, and its history entry is left untouched (never
re-recorded) — zero re-renders across the two runs. -/
theorem claim_C3_dedupe_across_runs :
    ∀ (md5 : String → String) (now now2 : String) (hour hour2 : Nat)
      (renderOk renderOk2 : Article → Bool) (store : Store)
      (pool pool2 : List Article) (a b : Article) (s1 : Store),
      (runDigest md5 now hour renderOk store pool).savedStore = some s1 →
      a ∈ (runDigest md5 now hour renderOk store pool).rendered →
      get_article_hash md5 b = get_article_hash md5 a →
      (storeMem s1 (get_article_hash md5 b) = true ∧
       b ∉ newArticlesOf md5 s1 pool2 ∧
       b ∉ (runDigest md5 now2 hour2 renderOk2 s1 pool2).rendered ∧
       storeLookup (runDigest md5 now2 hour2 renderOk2 s1 pool2).finalStore
           (get_article_hash md5 b) =
         storeLookup s1 (get_article_hash md5 b)) := by
  intro md5 now now2 hour hour2 renderOk renderOk2 store pool pool2 a b s1
    hsave hrend hhash
  by_cases h1 : pool.isEmpty = true
  · rw [runDigest_empty_pool md5 now hour renderOk store pool h1] at hsave
    exact absurd hsave (by simp)
  by_cases h2 : (newArticlesOf md5 store pool).isEmpty = true
  · rw [runDigest_empty_new md5 now hour renderOk store pool h2] at hsave
    exact absurd hsave (by simp)
  rw [runDigest_eq_main md5 now hour renderOk store pool
    (Bool.not_eq_true _ ▸ h1) (Bool.not_eq_true _ ▸ h2)] at hsave hrend
  have hs1 : s1 = (processSelected md5 now (get_content_strategy hour) renderOk
      store (selectedOf md5 hour store pool)).2.1 := by
    dsimp only at hsave
    split at hsave
    · exact absurd hsave (by simp)
    · exact (Option.some.inj hsave).symm
  have hmem : storeMem s1 (get_article_hash md5 b) = true := by
    rw [hs1, hhash]
    exact processSelected_mem_store md5 now (get_content_strategy hour) renderOk
      _ store a hrend
  refine ⟨hmem, newArticlesOf_not_mem hmem, ?_, ?_⟩
  · intro hb
    exact newArticlesOf_not_mem hmem (runDigest_rendered_new hb)
  · exact runDigest_lookup_unchanged md5 now2 hour2 renderOk2 s1 pool2 b hmem

/-- Witness for C3: run 1 renders a concrete article (empty history),
saving a one-entry store; run 2, loading that store, finds the
fingerprint, discards the article at dedupe, renders nothing with it,
and leaves its entry untouched. -/
theorem claim_C3_dedupe_witness :
    (runDigest id "N" 3 (fun _ => true) [] [⟨"T", "L", "P", "C"⟩]).savedStore =
      some [("TLC", ⟨"T", "L", "N", "Educational content for late-night learners"⟩)] ∧
    (⟨"T", "L", "P", "C"⟩ : Article) ∈
      (runDigest id "N" 3 (fun _ => true) [] [⟨"T", "L", "P", "C"⟩]).rendered ∧
    storeMem [("TLC", ⟨"T", "L", "N", "Educational content for late-night learners"⟩)]
      (get_article_hash id ⟨"T", "L", "P", "C"⟩) = true ∧
    (⟨"T", "L", "P", "C"⟩ : Article) ∉ newArticlesOf id
      [("TLC", ⟨"T", "L", "N", "Educational content for late-night learners"⟩)]
      [⟨"T", "L", "P", "C"⟩] ∧
    (⟨"T", "L", "P", "C"⟩ : Article) ∉
      (runDigest id "M" 9 (fun _ => true)
        [("TLC", ⟨"T", "L", "N", "Educational content for late-night learners"⟩)]
        [⟨"T", "L", "P", "C"⟩]).rendered ∧
    storeLookup (runDigest id "M" 9 (fun _ => true)
        [("TLC", ⟨"T", "L", "N", "Educational content for late-night learners"⟩)]
        [⟨"T", "L", "P", "C"⟩]).finalStore
        (get_article_hash id ⟨"T", "L", "P", "C"⟩) =
      storeLookup [("TLC", ⟨"T", "L", "N", "Educational content for late-night learners"⟩)]
        (get_article_hash id ⟨"T", "L", "P", "C"⟩) := by
  have h := claim_C3_dedupe_across_runs id "N" "M" 3 9 (fun _ => true) (fun _ => true)
    [] [⟨"T", "L", "P", "C"⟩] [⟨"T", "L", "P", "C"⟩]
    ⟨"T", "L", "P", "C"⟩ ⟨"T", "L", "P", "C"⟩
    [("TLC", ⟨"T", "L", "N", "Educational content for late-night learners"⟩)]
    (by decide) (by decide) rfl
  exact ⟨by decide, by decide, h.1, h.2.1, h.2.2.1, h.2.2.2⟩

/-- C10: two articles of the same fetched pool with the same fingerprint
that is absent from the loaded history are both classified as new (the
store is consulted for the whole pool before any record is written);
when both end up in the selected batch and every render succeeds, both
are rendered, and the surviving history entry under that fingerprint is
the record of the later of the two in selection order. -/
theorem claim_C10_within_run :
    ∀ (md5 : String → String) (now : String) (hour : Nat) (store : Store)
      (pool : List Article) (a b : Article),
      a ∈ pool → b ∈ pool →
      get_article_hash md5 b = get_article_hash md5 a →
      storeMem store (get_article_hash md5 a) = false →
      ((a ∈ newArticlesOf md5 store pool ∧ b ∈ newArticlesOf md5 store pool) ∧
       ∀ renderOk : Article → Bool,
         (∀ c ∈ selectedOf md5 hour store pool, renderOk c = true) →
         a ∈ selectedOf md5 hour store pool →
         b ∈ selectedOf md5 hour store pool →
         lastWithKey md5 (get_article_hash md5 a) (selectedOf md5 hour store pool) =
           some b →
         (a ∈ (runDigest md5 now hour renderOk store pool).rendered ∧
          b ∈ (runDigest md5 now hour renderOk store pool).rendered ∧
          storeLookup (runDigest md5 now hour renderOk store pool).finalStore
              (get_article_hash md5 a) =
            some (mkRecord now (get_content_strategy hour) b))) := by
  intro md5 now hour store pool a b ha hb hhash hstore
  have ha_new : a ∈ newArticlesOf md5 store pool :=
    List.mem_filter.mpr ⟨ha, by simp [hstore]⟩
  have hb_new : b ∈ newArticlesOf md5 store pool :=
    List.mem_filter.mpr ⟨hb, by simp [hhash, hstore]⟩
  refine ⟨⟨ha_new, hb_new⟩, ?_⟩
  intro renderOk hok hasel hbsel hlast
  have h1 : pool.isEmpty = false := by
    rw [Bool.eq_false_iff]
    intro hE
    rw [List.isEmpty_iff] at hE
    rw [hE] at ha
    simp at ha
  have h2 : (newArticlesOf md5 store pool).isEmpty = false := by
    rw [Bool.eq_false_iff]
    intro hE
    rw [List.isEmpty_iff] at hE
    rw [hE] at ha_new
    simp at ha_new
  rw [runDigest_eq_main md5 now hour renderOk store pool h1 h2]
  have hall := processSelected_all_ok md5 now (get_content_strategy hour) renderOk
    (selectedOf md5 hour store pool) store hok
  refine ⟨?_, ?_, ?_⟩
  · rw [hall.1]; exact hasel
  · rw [hall.1]; exact hbsel
  · rw [processSelected_lookup_last md5 now (get_content_strategy hour) renderOk
      (get_article_hash md5 a) (selectedOf md5 hour store pool) store hok, hlast]

/-- Witness for C10: two concrete articles differing only in their
`published` field (hence sharing a fingerprint) in one pool with empty
history: both are new, both get rendered, and the final store holds the
record of the second one. -/
theorem claim_C10_within_run_witness :
    ((⟨"T", "L", "p1", "C"⟩ : Article) ∈ newArticlesOf id [] [⟨"T", "L", "p1", "C"⟩, ⟨"T", "L", "p2", "C"⟩] ∧
     (⟨"T", "L", "p2", "C"⟩ : Article) ∈ newArticlesOf id [] [⟨"T", "L", "p1", "C"⟩, ⟨"T", "L", "p2", "C"⟩]) ∧
    (⟨"T", "L", "p1", "C"⟩ : Article) ∈
      (runDigest id "N" 3 (fun _ => true) [] [⟨"T", "L", "p1", "C"⟩, ⟨"T", "L", "p2", "C"⟩]).rendered ∧
    (⟨"T", "L", "p2", "C"⟩ : Article) ∈
      (runDigest id "N" 3 (fun _ => true) [] [⟨"T", "L", "p1", "C"⟩, ⟨"T", "L", "p2", "C"⟩]).rendered ∧
    storeLookup (runDigest id "N" 3 (fun _ => true) []
        [⟨"T", "L", "p1", "C"⟩, ⟨"T", "L", "p2", "C"⟩]).finalStore
        (get_article_hash id ⟨"T", "L", "p1", "C"⟩) =
      some (mkRecord "N" (get_content_strategy 3) ⟨"T", "L", "p2", "C"⟩) := by
  have h := claim_C10_within_run id "N" 3 []
    [⟨"T", "L", "p1", "C"⟩, ⟨"T", "L", "p2", "C"⟩]
    ⟨"T", "L", "p1", "C"⟩ ⟨"T", "L", "p2", "C"⟩
    (by decide) (by decide) rfl (by decide)
  have h2 := h.2 (fun _ => true) (by decide) (by decide) (by decide) (by decide)
  exact ⟨h.1, h2.1, h2.2.1, h2.2.2⟩

/-- C6 (evaluation of the code at the failing input): with two selected
articles of which only the second is renderable, a rendering failure on
the first aborts the whole loop — the renderable second article is not
rendered, nothing is recorded, and `save_processed_articles` is never
executed (`savedStore = none`), where the claim expects the failure to
be skipped, the run to continue, and the final save to still happen. -/
theorem claim_C6_render_failure_aborts_run :
    ((⟨"Bad", "L1", "p", "x"⟩ : Article).title == "Good") = false ∧
    ((⟨"Good", "L2", "p", "y"⟩ : Article).title == "Good") = true ∧
    (⟨"Good", "L2", "p", "y"⟩ : Article) ∈
      selectedOf id 3 [] [⟨"Bad", "L1", "p", "x"⟩, ⟨"Good", "L2", "p", "y"⟩] ∧
    runDigest id "N" 3 (fun c => c.title == "Good") []
      [⟨"Bad", "L1", "p", "x"⟩, ⟨"Good", "L2", "p", "y"⟩] = ⟨[], [], none⟩ := by
  decide
